import Mathlib

/-
  Verification of the `index-pool` crate (src/lib.rs): a keyed object pool
  with bounded sub-pools, lazy expiration, lexicographic eviction and an
  RAII guard (`Reusable`).

  Shallow embedding conventions:
  * `Instant` is modelled as a `Nat` timestamp in milliseconds; `elapsed`
    at observation time `now` is `now - start_time` (truncated subtraction);
    `Duration` is a `Nat` in milliseconds.
  * The `BTreeMap<String, Vec<Inner<T>>>` is modelled as an association
    list `List (String × List (Inner T))` with distinct keys (`Pool.WF`);
    `iter().next()` (the first key of the sorted map) is modelled as the
    lexicographic minimum of the key set (`Pool.minKey`).
  * A `Vec` sub-pool stores its most-recently-pushed entry FIRST:
    `Vec::push` is `cons` and `Vec::pop` takes the head, so stack order is
    preserved while proofs work on list heads.
  * `Fn() -> T` constructors are modelled as `Nat → T`, the argument being
    the invocation counter, so a theorem can count constructor calls.
  * The recursion of `Pool::pull` is modelled with explicit fuel; the Rust
    function recurses until a retrieval succeeds.
-/

namespace IndexPool

/-- One stored entry: the pooled object plus its creation timestamp
(`Inner { inner, start_time }` in src/lib.rs). -/
structure Inner (T : Type) where
  inner : T
  start_time : Nat
deriving DecidableEq

/-- `Inner::expired`: `start_time.elapsed().as_millis() > duration.as_millis()`. -/
def Inner.expired {T : Type} (e : Inner T) (duration now : Nat) : Bool :=
  decide (duration < now - e.start_time)

/-- The pool (`Pool<T>` in src/lib.rs): the two size bounds, the expiration
duration, and the keyed storage. -/
structure Pool (T : Type) where
  max_pool_indexes : Nat
  max_single_pool_size : Nat
  expiration : Nat
  objects : List (String × List (Inner T))
deriving DecidableEq

/-- The guard (`Reusable<'a, T>` in src/lib.rs): the index key it came from,
its original creation timestamp, and the wrapped object.  The `&'a Pool<T>`
back reference is modelled by passing the pool explicitly to the guard
operations. -/
structure Reusable (T : Type) where
  item : String
  start_time : Nat
  data : T
deriving DecidableEq

/-- Association list lookup with decidable `String` equality
(models `BTreeMap::get` / `contains_key`). -/
def lookupK {α : Type} : List (String × α) → String → Option α
  | [], _ => none
  | kv :: rest, k => if kv.1 = k then some kv.2 else lookupK rest k

/-- Replace the value stored under a key, first occurrence only
(models in-place mutation through `BTreeMap::get_mut`). -/
def updateK {α : Type} : List (String × α) → String → α → List (String × α)
  | [], _, _ => []
  | kv :: rest, k, v => if kv.1 = k then (k, v) :: rest else kv :: updateK rest k v

/-- Remove the binding of a key, first occurrence only
(models `BTreeMap::remove`). -/
def removeK {α : Type} : List (String × α) → String → List (String × α)
  | [], _ => []
  | kv :: rest, k => if kv.1 = k then rest else kv :: removeK rest k

/-- Lexicographic minimum of a list of keys: the key `BTreeMap`'s sorted
iteration would yield first. -/
def keyMin : List String → Option String
  | [] => none
  | k :: rest =>
    match keyMin rest with
    | none => some k
    | some m => some (if k ≤ m then k else m)

/-- `Pool::size`: number of resident index keys. -/
def Pool.size {T : Type} (p : Pool T) : Nat := p.objects.length

/-- `Pool::len`: number of entries stored under a key, `0` if absent. -/
def Pool.len {T : Type} (p : Pool T) (item : String) : Nat :=
  match lookupK p.objects item with
  | some l => l.length
  | none => 0

/-- `Pool::is_full`: `size() >= max_pool_indexes`. -/
def Pool.is_full {T : Type} (p : Pool T) : Bool :=
  decide (p.max_pool_indexes ≤ p.size)

/-- The first key of the sorted mapping (`objects.read().iter().next()`). -/
def Pool.minKey {T : Type} (p : Pool T) : Option String :=
  keyMin (p.objects.map Prod.fst)

/-- `Pool::expunge_oldest`: when the pool is full, remove the first key of
the sorted mapping — unless that key is the empty string (the sentinel the
code initialises `last` with), in which case only an error is logged and
nothing is removed. -/
def Pool.expunge_oldest {T : Type} (p : Pool T) : Pool T :=
  if p.is_full then
    if p.minKey.getD "" ≠ "" then
      { p with objects := removeK p.objects (p.minKey.getD "") }
    else p
  else p

/-- Write back a sub-pool under a key (the effect of mutating the vector
obtained from `get_mut`). -/
def Pool.setSub {T : Type} (p : Pool T) (item : String) (l : List (Inner T)) : Pool T :=
  { p with objects := updateK p.objects item l }

/-- `Pool::try_pull`: trim one entry when the sub-pool exceeds
`max_single_pool_size`, then pop; an expired popped entry is dropped. -/
def Pool.try_pull {T : Type} (p : Pool T) (item : String) (now : Nat) :
    Option (Reusable T) × Pool T :=
  match lookupK p.objects item with
  | none => (none, p)
  | some objects =>
    match (if p.max_single_pool_size < objects.length then objects.tail else objects) with
    | [] => (none, p.setSub item [])
    | object :: rest =>
      if object.expired p.expiration now then (none, p.setSub item rest)
      else (some ⟨item, object.start_time, object.inner⟩, p.setSub item rest)

/-- `Pool::attach_time`: evict if full, then push onto the existing sub-pool
or create a singleton sub-pool. -/
def Pool.attach_time {T : Type} (p : Pool T) (item : String) (start_time : Nat) (t : T) :
    Pool T :=
  match lookupK p.expunge_oldest.objects item with
  | some objects => p.expunge_oldest.setSub item (⟨t, start_time⟩ :: objects)
  | none =>
    { p.expunge_oldest with
      objects := p.expunge_oldest.objects ++ [(item, [⟨t, start_time⟩])] }

/-- `Pool::attach`: `attach_time` stamped with the current instant. -/
def Pool.attach {T : Type} (p : Pool T) (item : String) (t : T) (now : Nat) : Pool T :=
  p.attach_time item now t

/-- The batch loop of `Pool::pull`:
`for _ in 0..max_single_pool_size { self.attach(item, fallback()) }`,
with `i` the constructor invocation counter. -/
def Pool.attachN {T : Type} :
    Pool T → String → (Nat → T) → Nat → Nat → Nat → Pool T
  | p, _, _, _, _, 0 => p
  | p, item, ctor, now, i, n + 1 =>
    Pool.attachN (p.attach_time item now (ctor i)) item ctor now (i + 1) n

/-- `Pool::pull` with explicit fuel: try to pull, otherwise create a full
batch of `max_single_pool_size` fresh entries and recurse.  Returns the
guard, the final pool state, and the number of constructor invocations
performed before the successful retrieval. -/
def Pool.pull {T : Type} :
    Nat → Pool T → String → (Nat → T) → Nat → Nat →
      Option (Reusable T × Pool T × Nat)
  | 0, _, _, _, _, _ => none
  | fuel + 1, p, item, ctor, now, i =>
    match p.try_pull item now with
    | (some r, q) => some (r, q, i)
    | (none, q) =>
      Pool.pull fuel (q.attachN item ctor now i p.max_single_pool_size)
        item ctor now (i + p.max_single_pool_size)

/-- `Reusable::detach`: consume the guard, yielding the pool reference and
the object; no pool mutation happens. -/
def Reusable.detach {T : Type} (p : Pool T) (r : Reusable T) : Pool T × T :=
  (p, r.data)

/-- `impl Drop for Reusable`: re-attach the wrapped object under its origin
key with the guard's original creation timestamp. -/
def Pool.dropReusable {T : Type} (p : Pool T) (r : Reusable T) : Pool T :=
  p.attach_time r.item r.start_time r.data

/-- Well-formedness inherited from `BTreeMap`: resident keys are distinct. -/
def Pool.WF {T : Type} (p : Pool T) : Prop :=
  (p.objects.map Prod.fst).Nodup

/-- The sub-pool produced by a batch of fresh attaches: entry for
invocation `i + n - 1` first (most recent), entry for invocation `i` last,
all carrying timestamp `now`. -/
def freshBatch {T : Type} (ctor : Nat → T) (now : Nat) : Nat → Nat → List (Inner T)
  | _, 0 => []
  | i, n + 1 => freshBatch ctor now (i + 1) n ++ [⟨ctor i, now⟩]

/-- Modelled from the spec: the "real pop" step of `retrieve` — "attempts
to pop the most-recently-pushed Entry for `key`. If the popped Entry's age
exceeds `expiration`, it is discarded (not returned, not re-inserted)". -/
def Pool.popSpec {T : Type} (p : Pool T) (item : String) (l : List (Inner T)) (now : Nat) :
    Option (Reusable T) × Pool T :=
  match l with
  | [] => (none, p.setSub item [])
  | e :: rest =>
    if e.expired p.expiration now then (none, p.setSub item rest)
    else (some ⟨item, e.start_time, e.inner⟩, p.setSub item rest)

section AssocLemmas

variable {α : Type} {T : Type}

theorem lookupK_updateK_self {l : List (String × α)} {k : String} {v₀ : α}
    (h : lookupK l k = some v₀) (v : α) : lookupK (updateK l k v) k = some v := by
  induction l with
  | nil => simp [lookupK] at h
  | cons kv rest ih =>
    by_cases hk : kv.1 = k
    · simp [lookupK, updateK, hk]
    · simp only [lookupK, updateK, if_neg hk] at h ⊢
      exact ih h

theorem lookupK_updateK_ne {l : List (String × α)} {k k' : String} (h : k' ≠ k) (v : α) :
    lookupK (updateK l k v) k' = lookupK l k' := by
  induction l with
  | nil => rfl
  | cons kv rest ih =>
    by_cases hk : kv.1 = k
    · have hk' : ¬ (k = k') := fun e => h e.symm
      have hk'' : ¬ (kv.1 = k') := by rw [hk]; exact hk'
      simp only [updateK, if_pos hk, lookupK, if_neg hk', if_neg hk'']
    · simp only [updateK, if_neg hk, lookupK]
      by_cases hkk : kv.1 = k'
      · simp [if_pos hkk]
      · simp only [if_neg hkk]
        exact ih

theorem map_fst_updateK (l : List (String × α)) (k : String) (v : α) :
    (updateK l k v).map Prod.fst = l.map Prod.fst := by
  induction l with
  | nil => rfl
  | cons kv rest ih =>
    by_cases hk : kv.1 = k
    · simp [updateK, hk]
    · simp [updateK, hk, ih]

theorem lookupK_append (l₁ l₂ : List (String × α)) (k : String) :
    lookupK (l₁ ++ l₂) k =
      match lookupK l₁ k with
      | some v => some v
      | none => lookupK l₂ k := by
  induction l₁ with
  | nil => simp [lookupK]
  | cons kv rest ih =>
    by_cases hk : kv.1 = k <;> simp [lookupK, hk, ih]

theorem lookupK_eq_none_iff {l : List (String × α)} {k : String} :
    lookupK l k = none ↔ k ∉ l.map Prod.fst := by
  induction l with
  | nil => simp [lookupK]
  | cons kv rest ih =>
    by_cases hk : kv.1 = k
    · simp [lookupK, hk]
    · simp only [lookupK, if_neg hk, List.map_cons, List.mem_cons, ih]
      constructor
      · rintro hnone (h1 | h2)
        · exact hk h1.symm
        · exact hnone h2
      · intro hno hmem
        exact hno (Or.inr hmem)

theorem lookupK_removeK_ne {l : List (String × α)} {k k' : String} (h : k' ≠ k) :
    lookupK (removeK l k) k' = lookupK l k' := by
  induction l with
  | nil => rfl
  | cons kv rest ih =>
    by_cases hk : kv.1 = k
    · have hk'' : ¬ (kv.1 = k') := by rw [hk]; exact fun e => h e.symm
      simp only [removeK, if_pos hk, lookupK, if_neg hk'']
    · simp only [removeK, if_neg hk, lookupK]
      by_cases hkk : kv.1 = k'
      · simp [if_pos hkk]
      · simp only [if_neg hkk]
        exact ih

theorem lookupK_removeK_self {l : List (String × α)} {k : String}
    (h : (l.map Prod.fst).Nodup) : lookupK (removeK l k) k = none := by
  induction l with
  | nil => rfl
  | cons kv rest ih =>
    simp only [List.map_cons, List.nodup_cons] at h
    by_cases hk : kv.1 = k
    · simp only [removeK, if_pos hk]
      apply lookupK_eq_none_iff.mpr
      rw [← hk]
      exact h.1
    · simp only [removeK, if_neg hk, lookupK, if_neg hk]
      exact ih h.2

theorem length_removeK_of_mem {l : List (String × α)} {k : String}
    (h : k ∈ l.map Prod.fst) : (removeK l k).length + 1 = l.length := by
  induction l with
  | nil => simp at h
  | cons kv rest ih =>
    by_cases hk : kv.1 = k
    · simp [removeK, hk]
    · simp only [List.map_cons, List.mem_cons] at h
      rcases h with h | h

      · exact absurd h.symm hk
      · simp only [removeK, if_neg hk, List.length_cons]
        have := ih h
        omega

theorem map_fst_removeK_sublist (l : List (String × α)) (k : String) :
    ((removeK l k).map Prod.fst).Sublist (l.map Prod.fst) := by
  induction l with
  | nil => simp [removeK]
  | cons kv rest ih =>
    by_cases hk : kv.1 = k
    · simp only [removeK, if_pos hk, List.map_cons]
      exact (List.Sublist.refl _).cons _
    · simp only [removeK, if_neg hk, List.map_cons]
      exact ih.cons₂ _

theorem keyMin_mem {l : List String} {m : String} (h : keyMin l = some m) : m ∈ l := by
  induction l with
  | nil => simp [keyMin] at h
  | cons k rest ih =>
    simp only [keyMin] at h
    cases hr : keyMin rest with
    | none =>
      rw [hr] at h
      simp only [Option.some.injEq] at h
      exact h ▸ List.mem_cons_self _ _
    | some m' =>
      rw [hr] at h
      simp only [Option.some.injEq] at h
      by_cases hle : k ≤ m'
      · rw [if_pos hle] at h
        exact h ▸ List.mem_cons_self _ _
      · rw [if_neg hle] at h
        exact List.mem_cons_of_mem _ (ih (h ▸ hr))

end AssocLemmas

section PoolLemmas

variable {T : Type}

@[simp] theorem setSub_mpi (p : Pool T) (item : String) (l : List (Inner T)) :
    (p.setSub item l).max_pool_indexes = p.max_pool_indexes := rfl

@[simp] theorem setSub_msps (p : Pool T) (item : String) (l : List (Inner T)) :
    (p.setSub item l).max_single_pool_size = p.max_single_pool_size := rfl

@[simp] theorem setSub_exp (p : Pool T) (item : String) (l : List (Inner T)) :
    (p.setSub item l).expiration = p.expiration := rfl

@[simp] theorem expunge_mpi (p : Pool T) :
    p.expunge_oldest.max_pool_indexes = p.max_pool_indexes := by
  unfold Pool.expunge_oldest
  split
  · split <;> rfl
  · rfl

@[simp] theorem expunge_msps (p : Pool T) :
    p.expunge_oldest.max_single_pool_size = p.max_single_pool_size := by
  unfold Pool.expunge_oldest
  split
  · split <;> rfl
  · rfl

@[simp] theorem expunge_exp (p : Pool T) :
    p.expunge_oldest.expiration = p.expiration := by
  unfold Pool.expunge_oldest
  split
  · split <;> rfl
  · rfl

@[simp] theorem attach_time_mpi (p : Pool T) (item : String) (st : Nat) (t : T) :
    (p.attach_time item st t).max_pool_indexes = p.max_pool_indexes := by
  unfold Pool.attach_time
  split <;> simp [Pool.setSub]

@[simp] theorem attach_time_msps (p : Pool T) (item : String) (st : Nat) (t : T) :
    (p.attach_time item st t).max_single_pool_size = p.max_single_pool_size := by
  unfold Pool.attach_time
  split <;> simp [Pool.setSub]

@[simp] theorem attach_time_exp (p : Pool T) (item : String) (st : Nat) (t : T) :
    (p.attach_time item st t).expiration = p.expiration := by
  unfold Pool.attach_time
  split <;> simp [Pool.setSub]

@[simp] theorem attachN_mpi (item : String) (ctor : Nat → T) (now : Nat) :
    ∀ (n : Nat) (p : Pool T) (i : Nat),
      (p.attachN item ctor now i n).max_pool_indexes = p.max_pool_indexes := by
  intro n
  induction n with
  | zero => intro p i; rfl
  | succ n ih => intro p i; simp [Pool.attachN, ih]

@[simp] theorem attachN_msps (item : String) (ctor : Nat → T) (now : Nat) :
    ∀ (n : Nat) (p : Pool T) (i : Nat),
      (p.attachN item ctor now i n).max_single_pool_size = p.max_single_pool_size := by
  intro n
  induction n with
  | zero => intro p i; rfl
  | succ n ih => intro p i; simp [Pool.attachN, ih]

@[simp] theorem attachN_exp (item : String) (ctor : Nat → T) (now : Nat) :
    ∀ (n : Nat) (p : Pool T) (i : Nat),
      (p.attachN item ctor now i n).expiration = p.expiration := by
  intro n
  induction n with
  | zero => intro p i; rfl
  | succ n ih => intro p i; simp [Pool.attachN, ih]

theorem try_pull_snd_cases (p : Pool T) (item : String) (now : Nat) :
    (p.try_pull item now).2 = p ∨ ∃ l, (p.try_pull item now).2 = p.setSub item l := by
  unfold Pool.try_pull
  split
  · exact Or.inl rfl
  · split
    · exact Or.inr ⟨[], rfl⟩
    · split
      · exact Or.inr ⟨_, rfl⟩
      · exact Or.inr ⟨_, rfl⟩

@[simp] theorem try_pull_snd_msps (p : Pool T) (item : String) (now : Nat) :
    ((p.try_pull item now).2).max_single_pool_size = p.max_single_pool_size := by
  rcases try_pull_snd_cases p item now with h | ⟨l, h⟩
  · rw [h]
  · rw [h]; rfl

theorem nodup_snoc {β : Type} {l : List β} {a : β} (h : l.Nodup) (ha : a ∉ l) :
    (l ++ [a]).Nodup := by
  rw [List.nodup_append]
  refine ⟨h, List.nodup_singleton _, ?_⟩
  intro x hx hxa
  simp only [List.mem_singleton] at hxa
  exact ha (hxa ▸ hx)

theorem WF_setSub {p : Pool T} (h : p.WF) (item : String) (l : List (Inner T)) :
    (p.setSub item l).WF := by
  unfold Pool.WF Pool.setSub at *
  simpa [map_fst_updateK] using h

theorem WF_expunge {p : Pool T} (h : p.WF) : p.expunge_oldest.WF := by
  unfold Pool.expunge_oldest
  split
  · split
    · exact (map_fst_removeK_sublist _ _).nodup h
    · exact h
  · exact h

theorem WF_attach_time {p : Pool T} (h : p.WF) (item : String) (st : Nat) (t : T) :
    (p.attach_time item st t).WF := by
  have hq : p.expunge_oldest.WF := WF_expunge h
  unfold Pool.attach_time
  cases hl : lookupK p.expunge_oldest.objects item with
  | some objects => exact WF_setSub hq item _
  | none =>
    unfold Pool.WF at hq ⊢
    simp only [List.map_append, List.map_cons, List.map_nil]
    exact nodup_snoc hq (lookupK_eq_none_iff.mp hl)

theorem WF_attachN {item : String} {ctor : Nat → T} {now : Nat} :
    ∀ (n : Nat) (p : Pool T) (i : Nat), p.WF → (p.attachN item ctor now i n).WF := by
  intro n
  induction n with
  | zero => intro p i h; exact h
  | succ n ih =>
    intro p i h
    exact ih _ _ (WF_attach_time h item now (ctor i))

theorem WF_try_pull_snd {p : Pool T} (h : p.WF) (item : String) (now : Nat) :
    ((p.try_pull item now).2).WF := by
  rcases try_pull_snd_cases p item now with he | ⟨l, he⟩
  · rw [he]; exact h
  · rw [he]; exact WF_setSub h item l

theorem lookupK_expunge (p : Pool T) (h : p.WF) (item : String) :
    lookupK p.expunge_oldest.objects item = lookupK p.objects item ∨
    lookupK p.expunge_oldest.objects item = none := by
  unfold Pool.expunge_oldest
  split
  · split
    · by_cases hk : item = p.minKey.getD ""
      · right
        rw [hk]
        exact lookupK_removeK_self h
      · left
        exact lookupK_removeK_ne hk
    · left; rfl
  · left; rfl

theorem lookupK_attach_time (p : Pool T) (item : String) (st : Nat) (t : T) :
    ∃ rest, lookupK (p.attach_time item st t).objects item = some (⟨t, st⟩ :: rest) ∧
      (rest = [] ∨ lookupK p.expunge_oldest.objects item = some rest) := by
  unfold Pool.attach_time
  cases hl : lookupK p.expunge_oldest.objects item with
  | some objects =>
    exact ⟨objects, lookupK_updateK_self hl _, Or.inr rfl⟩
  | none =>
    refine ⟨[], ?_, Or.inl rfl⟩
    show lookupK (p.expunge_oldest.objects ++ [(item, [⟨t, st⟩])]) item = _
    rw [lookupK_append, hl]
    simp [lookupK]

@[simp] theorem length_freshBatch (ctor : Nat → T) (now : Nat) :
    ∀ (n i : Nat), (freshBatch ctor now i n).length = n := by
  intro n
  induction n with
  | zero => intro i; rfl
  | succ n ih => intro i; simp [freshBatch, ih]

theorem mem_freshBatch {ctor : Nat → T} {now : Nat} :
    ∀ {n i : Nat} {e : Inner T}, e ∈ freshBatch ctor now i n →
      e.start_time = now ∧ ∃ j, i ≤ j ∧ j < i + n ∧ e.inner = ctor j := by
  intro n
  induction n with
  | zero => intro i e h; simp [freshBatch] at h
  | succ n ih =>
    intro i e h
    simp only [freshBatch, List.mem_append, List.mem_singleton] at h
    rcases h with h | h
    · obtain ⟨h1, j, hj1, hj2, h3⟩ := ih h
      exact ⟨h1, j, by omega, by omega, h3⟩
    · subst h
      exact ⟨rfl, i, le_refl _, by omega, rfl⟩

theorem freshBatch_cons (ctor : Nat → T) (now : Nat) :
    ∀ (n i : Nat), ∃ rest, freshBatch ctor now i (n + 1) = ⟨ctor (i + n), now⟩ :: rest ∧
      rest.length = n := by
  intro n
  induction n with
  | zero =>
    intro i
    exact ⟨[], by simp [freshBatch], rfl⟩
  | succ n ih =>
    intro i
    obtain ⟨rest, hr, hl⟩ := ih (i + 1)
    refine ⟨rest ++ [⟨ctor i, now⟩], ?_, by simp [hl]⟩
    show freshBatch ctor now (i + 1) (n + 1) ++ [⟨ctor i, now⟩] = _
    rw [hr]
    have : i + 1 + n = i + (n + 1) := by omega
    rw [this]
    rfl

theorem try_pull_eq (p : Pool T) (item : String) (now : Nat) :
    p.try_pull item now =
      match lookupK p.objects item with
      | none => (none, p)
      | some l =>
        p.popSpec item (if p.max_single_pool_size < l.length then l.tail else l) now := by
  unfold Pool.try_pull Pool.popSpec
  cases hl : lookupK p.objects item with
  | none => rfl
  | some l =>
    cases hif : (if p.max_single_pool_size < l.length then l.tail else l) with
    | nil => rfl
    | cons e rest => rfl

@[simp] theorem attachN_zero (p : Pool T) (item : String) (ctor : Nat → T) (now i : Nat) :
    p.attachN item ctor now i 0 = p := rfl

theorem attachN_succ (p : Pool T) (item : String) (ctor : Nat → T) (now i n : Nat) :
    p.attachN item ctor now i (n + 1) =
      (p.attach_time item now (ctor i)).attachN item ctor now (i + 1) n := rfl

theorem freshBatch_succ (ctor : Nat → T) (now i n : Nat) :
    freshBatch ctor now i (n + 1) = freshBatch ctor now (i + 1) n ++ [⟨ctor i, now⟩] := rfl

theorem expired_fresh {e : Inner T} {d now : Nat} (h : e.start_time = now) :
    e.expired d now = false := by
  unfold Inner.expired
  rw [h]
  simp

/-- Effect of the batch-attach loop on the sub-pool of the batched key: the
sub-pool exists afterwards and is either made of at most `n` fresh entries
(an eviction inside the loop truncated it) or is the full fresh batch pushed
on top of whatever the key held before the loop. -/
theorem attachN_lookup (item : String) (ctor : Nat → T) (now : Nat) :
    ∀ (n : Nat) (p : Pool T) (i : Nat), p.WF → 1 ≤ n →
      ∃ l, lookupK (p.attachN item ctor now i n).objects item = some l ∧
        ((1 ≤ l.length ∧ l.length ≤ n ∧
            ∀ e ∈ l, e.start_time = now ∧ ∃ j, i ≤ j ∧ j < i + n ∧ e.inner = ctor j) ∨
         (∃ old, lookupK p.objects item = some old ∧ l = freshBatch ctor now i n ++ old)) := by
  intro n
  induction n with
  | zero => intro p i _ h1; omega
  | succ n ih =>
    intro p i hwf h1
    rw [attachN_succ]
    by_cases hn : n = 0
    · subst hn
      rw [attachN_zero]
      obtain ⟨rest, hq, hrest⟩ := lookupK_attach_time p item now (ctor i)
      refine ⟨⟨ctor i, now⟩ :: rest, hq, ?_⟩
      rcases hrest with hr | hr
      · subst hr
        left
        refine ⟨by simp, by simp, ?_⟩
        intro e he
        simp only [List.mem_singleton] at he
        subst he
        exact ⟨rfl, i, le_refl _, by omega, rfl⟩
      · rcases lookupK_expunge p hwf item with hex | hex
        · right
          refine ⟨rest, ?_, ?_⟩
          · rw [← hex]; exact hr
          · rfl
        · rw [hex] at hr
          exact Option.noConfusion hr
    · have hn1 : 1 ≤ n := by omega
      have hwq : (p.attach_time item now (ctor i)).WF := WF_attach_time hwf item now (ctor i)
      obtain ⟨l, hl, hcase⟩ := ih (p.attach_time item now (ctor i)) (i + 1) hwq hn1
      refine ⟨l, hl, ?_⟩
      rcases hcase with ⟨ha, hb, hc⟩ | ⟨old1, hold1, hfb⟩
      · left
        refine ⟨ha, by omega, ?_⟩
        intro e he
        obtain ⟨h1', j, hj1, hj2, h3⟩ := hc e he
        exact ⟨h1', j, by omega, by omega, h3⟩
      · obtain ⟨rest, hq2, hrest⟩ := lookupK_attach_time p item now (ctor i)
        have holdeq : (⟨ctor i, now⟩ : Inner T) :: rest = old1 :=
          Option.some.inj (hq2.symm.trans hold1)
        subst holdeq
        rcases hrest with hr | hr
        · subst hr
          left
          have hlfb : l = freshBatch ctor now i (n + 1) := by
            rw [hfb, freshBatch_succ]
          refine ⟨?_, ?_, ?_⟩
          · rw [hlfb, length_freshBatch]; omega
          · rw [hlfb, length_freshBatch]
          · intro e he
            rw [hlfb] at he
            exact mem_freshBatch he
        · rcases lookupK_expunge p hwf item with hex | hex
          · right
            refine ⟨rest, ?_, ?_⟩
            · rw [← hex]; exact hr
            · rw [hfb, freshBatch_succ, List.append_assoc]
              rfl
          · rw [hex] at hr
            exact Option.noConfusion hr

theorem try_pull_none {p : Pool T} {item : String} (now : Nat)
    (hl : lookupK p.objects item = none) : p.try_pull item now = (none, p) := by
  unfold Pool.try_pull
  rw [hl]

theorem try_pull_some {p : Pool T} {item : String} {l : List (Inner T)} (now : Nat)
    (hl : lookupK p.objects item = some l) :
    p.try_pull item now =
      p.popSpec item (if p.max_single_pool_size < l.length then l.tail else l) now := by
  rw [try_pull_eq, hl]

/-- After a failed `try_pull` whose sub-pool was within its bound, the
resulting state holds the key either not at all or with strictly fewer than
`max_single_pool_size` entries. -/
theorem try_pull_fail_state (p : Pool T) (item : String) (now : Nat)
    (h1 : 1 ≤ p.max_single_pool_size)
    (h2 : p.len item ≤ p.max_single_pool_size)
    (h3 : (p.try_pull item now).1 = none) :
    lookupK (p.try_pull item now).2.objects item = none ∨
      ∃ old, lookupK (p.try_pull item now).2.objects item = some old ∧
        old.length < p.max_single_pool_size := by
  cases hl : lookupK p.objects item with
  | none =>
    rw [try_pull_none now hl]
    exact Or.inl hl
  | some l =>
    have hle : l.length ≤ p.max_single_pool_size := by
      unfold Pool.len at h2
      rw [hl] at h2
      exact h2
    have hnotrim : ¬ (p.max_single_pool_size < l.length) := by omega
    have heq := try_pull_some now hl
    rw [if_neg hnotrim] at heq
    cases l with
    | nil =>
      rw [heq]
      right
      exact ⟨[], lookupK_updateK_self hl _, by simp only [List.length_nil]; omega⟩
    | cons e restl =>
      by_cases hexp : e.expired p.expiration now = true
      · have heq2 : p.try_pull item now = (none, p.setSub item restl) := by
          rw [heq]
          simp only [Pool.popSpec]
          rw [if_pos hexp]
        rw [heq2]
        right
        refine ⟨restl, lookupK_updateK_self hl _, ?_⟩
        simp only [List.length_cons] at hle
        omega
      · have heq2 : p.try_pull item now
            = (some ⟨item, e.start_time, e.inner⟩, p.setSub item restl) := by
          rw [heq]
          simp only [Pool.popSpec]
          rw [if_neg hexp]
        rw [heq2] at h3
        exact Option.noConfusion h3

/-- Core of the `pull` retry: starting from a state where the key is absent
or holds strictly fewer than `max_single_pool_size` entries, a full batch of
fresh attaches makes the next `try_pull` succeed with a freshly constructed
object. -/
theorem retry_after_batch (p1 : Pool T) (item : String) (ctor : Nat → T) (now : Nat)
    (hwf : p1.WF) (h1 : 1 ≤ p1.max_single_pool_size)
    (hstate : lookupK p1.objects item = none ∨
      ∃ old, lookupK p1.objects item = some old ∧
        old.length < p1.max_single_pool_size) :
    ∃ r q,
      (p1.attachN item ctor now 0 p1.max_single_pool_size).try_pull item now = (some r, q) ∧
      r.item = item ∧ r.start_time = now ∧
      ∃ j, j < p1.max_single_pool_size ∧ r.data = ctor j := by
  obtain ⟨l, hl2, hcase⟩ :=
    attachN_lookup item ctor now p1.max_single_pool_size p1 0 hwf h1
  have hms2 :
      (p1.attachN item ctor now 0 p1.max_single_pool_size).max_single_pool_size
        = p1.max_single_pool_size := attachN_msps item ctor now _ p1 0
  rcases hcase with ⟨hA1, hA2, hA3⟩ | ⟨old, holdp1, hfb⟩
  · cases l with
    | nil => simp at hA1
    | cons e lr =>
      obtain ⟨hst, j, hj0, hj1, hdata⟩ := hA3 e (List.mem_cons_self _ _)
      have hnt : ¬ ((p1.attachN item ctor now 0 p1.max_single_pool_size).max_single_pool_size
          < (e :: lr).length) := by
        rw [hms2]; omega
      have heq : (p1.attachN item ctor now 0 p1.max_single_pool_size).try_pull item now
          = (some ⟨item, now, e.inner⟩,
             (p1.attachN item ctor now 0 p1.max_single_pool_size).setSub item lr) := by
        rw [try_pull_some now hl2, if_neg hnt]
        simp only [Pool.popSpec]
        rw [if_neg (by simp [expired_fresh hst]), hst]
      exact ⟨⟨item, now, e.inner⟩, _, heq, rfl, rfl, j, by omega, hdata⟩
  · rcases hstate with hnone | ⟨old', hold', holdlen⟩
    · rw [hnone] at holdp1
      exact Option.noConfusion holdp1
    · have holdeq : old = old' := Option.some.inj (holdp1.symm.trans hold')
      subst holdeq
      obtain ⟨msm, hms⟩ : ∃ m, p1.max_single_pool_size = m + 1 :=
        ⟨p1.max_single_pool_size - 1, by omega⟩
      obtain ⟨fbrest, hfbcons, hfblen⟩ := freshBatch_cons ctor now msm 0
      cases hold : old with
      | nil =>
        subst hold
        have hlfb : l = freshBatch ctor now 0 p1.max_single_pool_size := by
          rw [hfb, List.append_nil]
        have hllen : l.length = p1.max_single_pool_size := by
          rw [hlfb, length_freshBatch]
        have hnt : ¬ ((p1.attachN item ctor now 0 p1.max_single_pool_size).max_single_pool_size
            < l.length) := by
          rw [hms2, hllen]; omega
        have hcons : l = (⟨ctor msm, now⟩ : Inner T) :: fbrest := by
          rw [hlfb, hms, hfbcons]
          simp
        have heq : (p1.attachN item ctor now 0 p1.max_single_pool_size).try_pull item now
            = (some ⟨item, now, ctor msm⟩,
               (p1.attachN item ctor now 0 p1.max_single_pool_size).setSub item fbrest) := by
          rw [try_pull_some now hl2, if_neg hnt, hcons]
          simp only [Pool.popSpec]
          rw [if_neg (by
            simp [expired_fresh (show ((⟨ctor msm, now⟩ : Inner T)).start_time = now from rfl)])]
        exact ⟨⟨item, now, ctor msm⟩, _, heq, rfl, rfl, msm, by omega, rfl⟩
      | cons o os =>
        have holdpos : 1 ≤ old.length := by rw [hold]; simp
        have hmsm1 : 1 ≤ msm := by omega
        have hllen : l.length = p1.max_single_pool_size + old.length := by
          rw [hfb]
          simp [length_freshBatch]
        have htrim : (p1.attachN item ctor now 0 p1.max_single_pool_size).max_single_pool_size
            < l.length := by
          rw [hms2, hllen]; omega
        cases hfr : fbrest with
        | nil =>
          rw [hfr] at hfblen
          simp at hfblen
          omega
        | cons e' fbr' =>
          have hltail : l.tail = e' :: (fbr' ++ old) := by
            rw [hfb, hms, hfbcons, hfr]
            simp
          have he'mem : e' ∈ freshBatch ctor now 0 p1.max_single_pool_size := by
            rw [hms, hfbcons, hfr]
            simp
          obtain ⟨hst, j, hj0, hj1, hdata⟩ := mem_freshBatch he'mem
          have heq : (p1.attachN item ctor now 0 p1.max_single_pool_size).try_pull item now
              = (some ⟨item, now, e'.inner⟩,
                 (p1.attachN item ctor now 0 p1.max_single_pool_size).setSub item
                   (fbr' ++ old)) := by
            rw [try_pull_some now hl2, if_pos htrim, hltail]
            simp only [Pool.popSpec]
            rw [if_neg (by simp [expired_fresh hst]), hst]
          exact ⟨⟨item, now, e'.inner⟩, _, heq, rfl, rfl, j, by omega, hdata⟩

theorem pull_succ (fuel : Nat) (p : Pool T) (item : String) (ctor : Nat → T) (now i : Nat) :
    Pool.pull (fuel + 1) p item ctor now i =
      match p.try_pull item now with
      | (some r, q) => some (r, q, i)
      | (none, q) =>
        Pool.pull fuel (q.attachN item ctor now i p.max_single_pool_size) item ctor now
          (i + p.max_single_pool_size) := rfl

theorem attach_empty (mi ms ex : Nat) (item : String) (st : Nat) (t : T) (h2 : 1 ≤ mi) :
    (Pool.mk mi ms ex ([] : List (String × List (Inner T)))).attach_time item st t
      = Pool.mk mi ms ex [(item, [⟨t, st⟩])] := by
  have hnf : (Pool.mk mi ms ex ([] : List (String × List (Inner T)))).expunge_oldest
      = Pool.mk mi ms ex ([] : List (String × List (Inner T))) := by
    unfold Pool.expunge_oldest
    have hfull : (Pool.mk mi ms ex ([] : List (String × List (Inner T)))).is_full = false := by
      unfold Pool.is_full Pool.size
      simp only [List.length_nil]
      exact decide_eq_false (by omega)
    rw [hfull]
    simp
  unfold Pool.attach_time
  rw [hnf]
  simp [lookupK]

theorem attach_single_key (mi ms ex : Nat) (item : String) (l : List (Inner T)) (st : Nat)
    (t : T) (h2 : 2 ≤ mi) :
    (Pool.mk mi ms ex [(item, l)]).attach_time item st t
      = Pool.mk mi ms ex [(item, ⟨t, st⟩ :: l)] := by
  have hnf : (Pool.mk mi ms ex [(item, l)] : Pool T).expunge_oldest
      = Pool.mk mi ms ex [(item, l)] := by
    unfold Pool.expunge_oldest
    have hfull : (Pool.mk mi ms ex [(item, l)] : Pool T).is_full = false := by
      unfold Pool.is_full Pool.size
      simp only [List.length_cons, List.length_nil]
      exact decide_eq_false (by omega)
    rw [hfull]
    simp
  unfold Pool.attach_time
  rw [hnf]
  simp [lookupK, Pool.setSub, updateK]

theorem attachN_single_key (mi ms ex : Nat) (item : String) (ctor : Nat → T) (now : Nat)
    (h2 : 2 ≤ mi) :
    ∀ (n : Nat) (l : List (Inner T)) (i : Nat),
      (Pool.mk mi ms ex [(item, l)]).attachN item ctor now i n
        = Pool.mk mi ms ex [(item, freshBatch ctor now i n ++ l)] := by
  intro n
  induction n with
  | zero => intro l i; simp [freshBatch]
  | succ n ih =>
    intro l i
    rw [attachN_succ, attach_single_key mi ms ex item l now (ctor i) h2, ih]
    rw [freshBatch_succ, List.append_assoc]
    rfl

end PoolLemmas

section Claims

variable {T : Type}

/-- C1, counterexample.  The claim says that whenever retrieval fails,
`pull` attaches `max_single_pool_size` fresh entries and the single retry
then succeeds.  In the state below (`max_single_pool_size = 1`, expiration
10 ms, key `"b"` holding four entries created at time 0, observed at time
100) the first retrieval fails, and after the full batch of fresh attaches
the retry fails again: the overflow trim discards the single fresh entry and
the next pop yields an expired one. -/
theorem C1_counterexample :
    (((Pool.mk 5 1 10 [("b", [⟨7, 0⟩, ⟨7, 0⟩, ⟨7, 0⟩, ⟨7, 0⟩])] : Pool Nat).try_pull
        "b" 100).1 = none) ∧
    ((((Pool.mk 5 1 10 [("b", [⟨7, 0⟩, ⟨7, 0⟩, ⟨7, 0⟩, ⟨7, 0⟩])] : Pool Nat).try_pull
          "b" 100).2.attachN "b" (fun j => 100 + j) 100 0
        (Pool.mk 5 1 10 [("b", [⟨7, 0⟩, ⟨7, 0⟩, ⟨7, 0⟩, ⟨7, 0⟩])] :
          Pool Nat).max_single_pool_size).try_pull "b" 100).1 = none := by
  decide

/-- C1 (amended): for every well-formed pool whose sub-pool for the key is
within its bound (`len key ≤ max_single_pool_size`, `max_single_pool_size ≥ 1`),
if retrieval fails then `pull` invokes the constructor exactly
`max_single_pool_size` times, attaches each result under the key, and the
single retry succeeds, returning a guard with the original key, a fresh
timestamp, and one of the freshly constructed objects. -/
theorem C1_pull_miss_batch_retry (p : Pool T) (item : String) (ctor : Nat → T)
    (now fuel : Nat) (hwf : p.WF) (h1 : 1 ≤ p.max_single_pool_size)
    (h2 : p.len item ≤ p.max_single_pool_size)
    (h3 : (p.try_pull item now).1 = none) :
    ∃ r q, Pool.pull (fuel + 2) p item ctor now 0 = some (r, q, p.max_single_pool_size) ∧
      r.item = item ∧ r.start_time = now ∧
      ∃ j, j < p.max_single_pool_size ∧ r.data = ctor j := by
  have hmse : ((p.try_pull item now).2).max_single_pool_size = p.max_single_pool_size :=
    try_pull_snd_msps p item now
  have hstate := try_pull_fail_state p item now h1 h2 h3
  have h1' : 1 ≤ ((p.try_pull item now).2).max_single_pool_size := by
    rw [hmse]; exact h1
  have hstate' : lookupK (p.try_pull item now).2.objects item = none ∨
      ∃ old, lookupK (p.try_pull item now).2.objects item = some old ∧
        old.length < ((p.try_pull item now).2).max_single_pool_size := by
    rw [hmse]; exact hstate
  obtain ⟨r, q, hretry, hritem, hrstart, j, hj, hrdata⟩ :=
    retry_after_batch ((p.try_pull item now).2) item ctor now
      (WF_try_pull_snd hwf item now) h1' hstate'
  rw [hmse] at hretry hj
  refine ⟨r, q, ?_, hritem, hrstart, j, hj, hrdata⟩
  have hp1 : p.try_pull item now = (none, (p.try_pull item now).2) := by
    rw [← h3]
  have hfe : fuel + 2 = (fuel + 1) + 1 := rfl
  rw [hfe, pull_succ, hp1]
  show Pool.pull (fuel + 1)
      (((p.try_pull item now).2).attachN item ctor now 0 p.max_single_pool_size)
      item ctor now (0 + p.max_single_pool_size) = _
  rw [pull_succ, hretry]
  show some (r, q, 0 + p.max_single_pool_size) = _
  rw [Nat.zero_add]

/-- C1, witness for the amended theorem: an empty default pool, key `"a"`,
observed at time 5. -/
theorem C1_witness :
    ∃ r q,
      Pool.pull (0 + 2) (Pool.mk 32 8 300 ([] : List (String × List (Inner Nat)))) "a"
          (fun j => j) 5 0
        = some (r, q,
            (Pool.mk 32 8 300 ([] : List (String × List (Inner Nat)))).max_single_pool_size) ∧
      r.item = "a" ∧ r.start_time = 5 ∧
      ∃ j, j < (Pool.mk 32 8 300
          ([] : List (String × List (Inner Nat)))).max_single_pool_size ∧
        r.data = (fun j => j) j :=
  C1_pull_miss_batch_retry (Pool.mk 32 8 300 ([] : List (String × List (Inner Nat)))) "a"
    (fun j => j) 5 0 List.nodup_nil (by decide) (by decide) (by decide)

/-- C8, counterexample.  The claim says that after `pull(key, ctor)` on an
empty pool, `length(key) = max_single_pool_size - 1`.  On an empty pool with
`max_pool_indexes = 1` every attach of the batch loop finds the pool full
and evicts the key itself before re-inserting, so the batch leaves a single
entry, the retry consumes it, and `length(key) = 0 ≠ 8 - 1`. -/
theorem C8_counterexample :
    Pool.pull 2 (Pool.mk 1 8 300 ([] : List (String × List (Inner Nat)))) "a"
        (fun j => j) 0 0
      = some (⟨"a", 0, 7⟩, Pool.mk 1 8 300 [("a", [])], 8) ∧
    (Pool.mk 1 8 300 [("a", ([] : List (Inner Nat)))]).len "a" = 0 ∧
    (0 : Nat) ≠ 8 - 1 := by
  decide

/-- C8 (amended): for every key and constructor, `pull` on an empty pool
with `max_single_pool_size ≥ 1` and `max_pool_indexes ≥ 2` performs exactly
`max_single_pool_size` constructor invocations, returns a guard wrapping the
most recently constructed object (the output of the last constructor call),
and leaves `length(key) = max_single_pool_size - 1`. -/
theorem C8_pull_on_empty (mi ms ex : Nat) (item : String) (ctor : Nat → T)
    (now fuel : Nat) (h1 : 1 ≤ ms) (h2 : 2 ≤ mi) :
    ∃ q,
      Pool.pull (fuel + 2) (Pool.mk mi ms ex ([] : List (String × List (Inner T)))) item
          ctor now 0
        = some (⟨item, now, ctor (ms - 1)⟩, q, ms) ∧ q.len item = ms - 1 := by
  obtain ⟨msm, hms⟩ : ∃ m, ms = m + 1 := ⟨ms - 1, by omega⟩
  subst hms
  have hlook : lookupK ([] : List (String × List (Inner T))) item = none := rfl
  have hp1 : (Pool.mk (mi) (msm + 1) ex ([] : List (String × List (Inner T)))).try_pull
      item now = (none, Pool.mk mi (msm + 1) ex []) := try_pull_none now hlook
  have hbatch :
      (Pool.mk mi (msm + 1) ex ([] : List (String × List (Inner T)))).attachN item ctor now 0
          (msm + 1)
        = Pool.mk mi (msm + 1) ex [(item, freshBatch ctor now 0 (msm + 1))] := by
    rw [attachN_succ, attach_empty mi (msm + 1) ex item now (ctor 0) (by omega),
      attachN_single_key mi (msm + 1) ex item ctor now h2 msm [⟨ctor 0, now⟩] 1]
    rw [freshBatch_succ]
  obtain ⟨fbrest, hfbcons, hfblen⟩ := freshBatch_cons ctor now msm 0
  have hlook2 : lookupK [(item, freshBatch ctor now 0 (msm + 1))] item
      = some (freshBatch ctor now 0 (msm + 1)) := by
    simp [lookupK]
  have hnt : ¬ ((Pool.mk mi (msm + 1) ex
      [(item, freshBatch ctor now 0 (msm + 1))] : Pool T).max_single_pool_size
        < (freshBatch ctor now 0 (msm + 1)).length) := by
    simp only [length_freshBatch]
    omega
  have htp2 : (Pool.mk mi (msm + 1) ex
      [(item, freshBatch ctor now 0 (msm + 1))] : Pool T).try_pull item now
        = (some ⟨item, now, ctor msm⟩,
           Pool.mk mi (msm + 1) ex [(item, fbrest)]) := by
    rw [try_pull_some now hlook2, if_neg hnt, hfbcons]
    simp only [Pool.popSpec]
    rw [if_neg (by simp [expired_fresh])]
    simp [Pool.setSub, updateK, Nat.zero_add]
  refine ⟨Pool.mk mi (msm + 1) ex [(item, fbrest)], ?_, ?_⟩
  · have hfe : fuel + 2 = (fuel + 1) + 1 := rfl
    rw [hfe, pull_succ, hp1]
    show Pool.pull (fuel + 1)
        ((Pool.mk mi (msm + 1) ex ([] : List (String × List (Inner T)))).attachN item ctor
          now 0 (msm + 1))
        item ctor now (0 + (msm + 1)) = _
    rw [hbatch, pull_succ, htp2]
    simp
  · unfold Pool.len
    rw [show lookupK [(item, fbrest)] item = some fbrest by simp [lookupK]]
    show fbrest.length = msm + 1 - 1
    rw [hfblen]
    omega

/-- C8, witness for the amended theorem: default-sized empty pool, key
`"a"`, identity constructor, observed at time 5. -/
theorem C8_witness :
    ∃ q,
      Pool.pull (0 + 2) (Pool.mk 32 8 300 ([] : List (String × List (Inner Nat)))) "a"
          (fun j => j) 5 0
        = some (⟨"a", 5, (fun j => j) (8 - 1)⟩, q, 8) ∧ q.len "a" = 8 - 1 :=
  C8_pull_on_empty 32 8 300 "a" (fun j => j) 5 0 (by decide) (by decide)

theorem expunge_not_full {p : Pool T} (h : p.is_full = false) : p.expunge_oldest = p := by
  unfold Pool.expunge_oldest
  rw [h]
  simp

theorem attach_time_of_none {p : Pool T} {item : String} (st : Nat) (t : T)
    (h : lookupK p.expunge_oldest.objects item = none) :
    p.attach_time item st t
      = { p.expunge_oldest with
          objects := p.expunge_oldest.objects ++ [(item, [⟨t, st⟩])] } := by
  unfold Pool.attach_time
  rw [h]

theorem attach_time_of_some {p : Pool T} {item : String} {l : List (Inner T)} (st : Nat)
    (t : T) (h : lookupK p.expunge_oldest.objects item = some l) :
    p.attach_time item st t = p.expunge_oldest.setSub item (⟨t, st⟩ :: l) := by
  unfold Pool.attach_time
  rw [h]

/-- C2, counterexample.  The claim asserts that the
(`max_pool_indexes` + 1)-th distinct-key attach always leaves
`size() <= max_pool_indexes`.  With `max_pool_indexes = 1`, attaching the
empty-string key and then key `"a"` leaves `size() = 2`: the eviction is
skipped because the lexicographically first key is `""`. -/
theorem C2_counterexample :
    ((Pool.mk 1 8 300 ([] : List (String × List (Inner Nat)))).attach_time "" 0 0).size = 1 ∧
    (((Pool.mk 1 8 300 ([] : List (String × List (Inner Nat)))).attach_time "" 0
        0).attach_time "a" 0 0).size = 2 ∧
    ¬ (2 ≤ (Pool.mk 1 8 300
        ([] : List (String × List (Inner Nat)))).max_pool_indexes) := by
  decide

/-- C2 (amended): attaching a new key to a non-full pool grows `size()` by
exactly one; attaching a new key to a well-formed pool holding exactly
`max_pool_indexes` distinct keys evicts the lexicographically first key in
its entirety and leaves `size() = max_pool_indexes` — provided the
lexicographically first resident key is not the empty string (otherwise the
eviction is skipped and the bound can be exceeded, see C9). -/
theorem C2_capacity (p : Pool T) (k m : String) (st : Nat) (t : T) :
    (p.is_full = false → lookupK p.objects k = none →
      (p.attach_time k st t).size = p.size + 1) ∧
    (p.WF → p.size = p.max_pool_indexes → p.minKey = some m → m ≠ "" →
      lookupK p.objects k = none →
      (p.attach_time k st t).size = p.max_pool_indexes ∧
      lookupK (p.attach_time k st t).objects m = none) := by
  constructor
  · intro hnf hk
    have he := expunge_not_full hnf
    have h0 : lookupK p.expunge_oldest.objects k = none := by rw [he]; exact hk
    rw [attach_time_of_none st t h0, he]
    unfold Pool.size
    simp
  · intro hwf hsz hmin hne hk
    have hfull : p.is_full = true := by
      unfold Pool.is_full
      exact decide_eq_true (by omega)
    have hexp : p.expunge_oldest = { p with objects := removeK p.objects m } := by
      unfold Pool.expunge_oldest
      rw [hfull, hmin]
      simp [hne]
    have hm_mem : m ∈ p.objects.map Prod.fst := by
      have hmin' := hmin
      unfold Pool.minKey at hmin'
      exact keyMin_mem hmin'
    have hkm : k ≠ m := by
      intro e
      exact absurd hm_mem (e ▸ lookupK_eq_none_iff.mp hk)
    have h0 : lookupK p.expunge_oldest.objects k = none := by
      rw [hexp]
      show lookupK (removeK p.objects m) k = none
      rw [lookupK_removeK_ne hkm]
      exact hk
    rw [attach_time_of_none st t h0, hexp]
    constructor
    · unfold Pool.size
      show (removeK p.objects m ++ [(k, [(⟨t, st⟩ : Inner T)])]).length = p.max_pool_indexes
      rw [List.length_append]
      have hrl := length_removeK_of_mem hm_mem
      unfold Pool.size at hsz
      simp only [List.length_cons, List.length_nil]
      omega
    · show lookupK (removeK p.objects m ++ [(k, [(⟨t, st⟩ : Inner T)])]) m = none
      rw [lookupK_append, lookupK_removeK_self hwf]
      show lookupK [(k, [(⟨t, st⟩ : Inner T)])] m = none
      unfold lookupK
      rw [if_neg hkm]
      rfl

/-- C2, witness for the amended theorem: part one on a non-full pool (3
indexes, one resident key), part two on a full one-index pool where key
`"b"` is evicted by attaching `"a"`. -/
theorem C2_witness :
    (((Pool.mk 3 8 300 [("b", [⟨1, 0⟩])] : Pool Nat).attach_time "a" 5 9).size
      = (Pool.mk 3 8 300 [("b", [⟨1, 0⟩])] : Pool Nat).size + 1) ∧
    (((Pool.mk 1 8 300 [("b", [⟨1, 0⟩])] : Pool Nat).attach_time "a" 5 9).size
        = (Pool.mk 1 8 300 [("b", [⟨1, 0⟩])] : Pool Nat).max_pool_indexes ∧
      lookupK ((Pool.mk 1 8 300 [("b", [⟨1, 0⟩])] : Pool Nat).attach_time "a" 5 9).objects
        "b" = none) :=
  ⟨(C2_capacity (Pool.mk 3 8 300 [("b", [⟨1, 0⟩])]) "a" "b" 5 9).1 (by decide) (by decide),
   (C2_capacity (Pool.mk 1 8 300 [("b", [⟨1, 0⟩])]) "a" "b" 5 9).2
     (by unfold Pool.WF; decide) (by decide) (by decide) (by decide) (by decide)⟩

/-- C9: when the pool is full but the lexicographically first resident key
is the empty string (or the mapping is empty, as happens when
`max_pool_indexes = 0`), `expunge_oldest` removes nothing — only the error
path is taken — yet `attach` still inserts its entry, so attaching a new
key pushes `size()` strictly beyond `max_pool_indexes`: the capacity bound
is not an invariant when `""` can be a key. -/
theorem C9_empty_key_skips_eviction (p : Pool T) (k : String) (st : Nat) (t : T)
    (hfull : p.is_full = true) (hmin : p.minKey = some "" ∨ p.objects = [])
    (hk : lookupK p.objects k = none) :
    p.expunge_oldest = p ∧
    (p.attach_time k st t).size = p.size + 1 ∧
    p.max_pool_indexes < (p.attach_time k st t).size := by
  have hexp : p.expunge_oldest = p := by
    unfold Pool.expunge_oldest
    rw [hfull]
    rcases hmin with hm | hm
    · rw [hm]
      simp
    · have hmn : p.minKey = none := by
        unfold Pool.minKey
        rw [hm]
        rfl
      rw [hmn]
      simp
  have h0 : lookupK p.expunge_oldest.objects k = none := by rw [hexp]; exact hk
  have hsz : (p.attach_time k st t).size = p.size + 1 := by
    rw [attach_time_of_none st t h0, hexp]
    unfold Pool.size
    simp
  refine ⟨hexp, hsz, ?_⟩
  rw [hsz]
  unfold Pool.is_full at hfull
  have := of_decide_eq_true hfull
  omega

/-- C9, witness: a full one-index pool whose only key is `""`; attaching
`"a"` skips eviction and leaves two resident keys. -/
theorem C9_witness :
    (Pool.mk 1 8 300 [("", [⟨3, 0⟩])] : Pool Nat).expunge_oldest
        = Pool.mk 1 8 300 [("", [⟨3, 0⟩])] ∧
    ((Pool.mk 1 8 300 [("", [⟨3, 0⟩])] : Pool Nat).attach_time "a" 7 4).size
        = (Pool.mk 1 8 300 [("", [⟨3, 0⟩])] : Pool Nat).size + 1 ∧
    (Pool.mk 1 8 300 [("", [⟨3, 0⟩])] : Pool Nat).max_pool_indexes
        < ((Pool.mk 1 8 300 [("", [⟨3, 0⟩])] : Pool Nat).attach_time "a" 7 4).size :=
  C9_empty_key_skips_eviction (Pool.mk 1 8 300 [("", [⟨3, 0⟩])]) "a" 7 4 (by decide)
    (Or.inl (by decide)) (by decide)

/-- C10: when a well-formed pool is full, `attach` evicts the
lexicographically first (non-empty) key even when the attached key is
already resident.  First conjunct: attaching under a different key wipes
the evicted key's sub-pool entirely.  Second conjunct: when the attached
key itself is the lexicographically first key, all its existing entries are
discarded and only the single new entry remains (`length(key) = 1`). -/
theorem C10_eviction_on_attach (p : Pool T) (k m : String) (st : Nat) (t : T)
    (hwf : p.WF) (hfull : p.is_full = true) (hmin : p.minKey = some m) (hne : m ≠ "") :
    (k ≠ m → lookupK (p.attach_time k st t).objects m = none) ∧
    (k = m → lookupK (p.attach_time k st t).objects k = some [⟨t, st⟩]) := by
  have hexp : p.expunge_oldest = { p with objects := removeK p.objects m } := by
    unfold Pool.expunge_oldest
    rw [hfull, hmin]
    simp [hne]
  constructor
  · intro hkm
    have hm0 : lookupK p.expunge_oldest.objects m = none := by
      rw [hexp]
      exact lookupK_removeK_self hwf
    cases hlk : lookupK p.expunge_oldest.objects k with
    | some l =>
      rw [attach_time_of_some st t hlk]
      show lookupK (updateK p.expunge_oldest.objects k ((⟨t, st⟩ : Inner T) :: l)) m = none
      rw [lookupK_updateK_ne (Ne.symm hkm)]
      exact hm0
    | none =>
      rw [attach_time_of_none st t hlk]
      show lookupK (p.expunge_oldest.objects ++ [(k, [(⟨t, st⟩ : Inner T)])]) m = none
      rw [lookupK_append, hm0]
      show lookupK [(k, [(⟨t, st⟩ : Inner T)])] m = none
      unfold lookupK
      rw [if_neg hkm]
      rfl
  · intro hkm
    subst hkm
    have hm0 : lookupK p.expunge_oldest.objects k = none := by
      rw [hexp]
      exact lookupK_removeK_self hwf
    rw [attach_time_of_none st t hm0]
    show lookupK (p.expunge_oldest.objects ++ [(k, [(⟨t, st⟩ : Inner T)])]) k = some [(⟨t, st⟩ : Inner T)]
    rw [lookupK_append, hm0]
    show lookupK [(k, [(⟨t, st⟩ : Inner T)])] k = some [(⟨t, st⟩ : Inner T)]
    unfold lookupK
    rw [if_pos rfl]

/-- C10, witness: a full one-index pool whose only (hence lexicographically
first) key is `"a"` holding two entries; attaching under `"a"` discards
both and leaves the single fresh entry. -/
theorem C10_witness :
    ("a" ≠ "a" →
      lookupK ((Pool.mk 1 2 300 [("a", [⟨1, 0⟩, ⟨2, 0⟩])] : Pool Nat).attach_time
        "a" 9 5).objects "a" = none) ∧
    ("a" = "a" →
      lookupK ((Pool.mk 1 2 300 [("a", [⟨1, 0⟩, ⟨2, 0⟩])] : Pool Nat).attach_time
        "a" 9 5).objects "a" = some [⟨5, 9⟩]) :=
  C10_eviction_on_attach (Pool.mk 1 2 300 [("a", [⟨1, 0⟩, ⟨2, 0⟩])]) "a" "a" 9 5
    (by unfold Pool.WF; decide) (by decide) (by decide) (by decide)

theorem try_pull_after_attach {p : Pool T} {item : String} (st : Nat) (t : T) (now : Nat)
    (hlen : (p.attach_time item st t).len item ≤ p.max_single_pool_size)
    (hexp : (⟨t, st⟩ : Inner T).expired p.expiration now = false) :
    ((p.attach_time item st t).try_pull item now).1 = some ⟨item, st, t⟩ := by
  obtain ⟨rest, hq, _⟩ := lookupK_attach_time p item st t
  have hlen2 : ((⟨t, st⟩ : Inner T) :: rest).length
      ≤ (p.attach_time item st t).max_single_pool_size := by
    rw [attach_time_msps]
    unfold Pool.len at hlen
    rw [hq] at hlen
    exact hlen
  have hnt : ¬ ((p.attach_time item st t).max_single_pool_size
      < ((⟨t, st⟩ : Inner T) :: rest).length) := by omega
  rw [try_pull_some now hq, if_neg hnt]
  simp only [Pool.popSpec]
  rw [if_neg (by rw [attach_time_exp]; simp [hexp])]

theorem len_attach_not_full {p : Pool T} (hnf : p.is_full = false) (item : String)
    (st : Nat) (t : T) :
    (p.attach_time item st t).len item = p.len item + 1 := by
  have he := expunge_not_full hnf
  cases hl : lookupK p.objects item with
  | some l =>
    have hl' : lookupK p.expunge_oldest.objects item = some l := by rw [he]; exact hl
    rw [attach_time_of_some st t hl', he]
    unfold Pool.len Pool.setSub
    rw [lookupK_updateK_self hl _, hl]
    rfl
  | none =>
    have hl' : lookupK p.expunge_oldest.objects item = none := by rw [he]; exact hl
    have happ : lookupK (p.objects ++ [(item, [(⟨t, st⟩ : Inner T)])]) item
        = some [⟨t, st⟩] := by
      rw [lookupK_append, hl]
      show lookupK [(item, [(⟨t, st⟩ : Inner T)])] item = _
      unfold lookupK
      rw [if_pos rfl]
    rw [attach_time_of_none st t hl', he]
    unfold Pool.len
    rw [happ, hl]
    rfl

/-- C3, counterexample.  A guard created at time 5 is detached and its
object manually re-inserted with `attach` at time 50: the new entry's
timestamp is 50 (the attach time), not the original 5, so the timestamp is
NOT preserved across a detach/re-attach cycle. -/
theorem C3_counterexample :
    Reusable.detach (Pool.mk 32 8 300 ([] : List (String × List (Inner Nat))))
        ⟨"a", 5, 42⟩
      = (Pool.mk 32 8 300 [], 42) ∧
    lookupK ((Pool.mk 32 8 300 ([] : List (String × List (Inner Nat)))).attach
        "a" 42 50).objects "a" = some [⟨42, 50⟩] ∧
    (⟨42, 50⟩ : Inner Nat) ≠ ⟨42, 5⟩ := by
  decide

/-- C3 (amended): an entry's creation timestamp is assigned when the entry
enters the pool: the public `attach(key, object)` stamps the current
instant, so a detach followed by a manual re-attach gives the object a
fresh timestamp; the original timestamp IS preserved across automatic
return (drop) cycles, which re-attach through `attach_time` with the
guard's original creation timestamp. -/
theorem C3_timestamps (p : Pool T) (k : String) (t : T) (now : Nat) (r : Reusable T) :
    (∃ rest, lookupK (p.attach k t now).objects k = some (⟨t, now⟩ :: rest)) ∧
    (∃ rest, lookupK (p.dropReusable r).objects r.item
        = some (⟨r.data, r.start_time⟩ :: rest)) := by
  constructor
  · obtain ⟨rest, h, _⟩ := lookupK_attach_time p k now t
    exact ⟨rest, h⟩
  · obtain ⟨rest, h, _⟩ := lookupK_attach_time p r.item r.start_time r.data
    exact ⟨rest, h⟩

/-- C4: dropping a guard that was not detached pushes the wrapped object
back under its original index key as a new entry carrying the guard's
original creation timestamp — `dropReusable` takes no clock argument at
all, so the return time cannot enter the new entry and the expiration clock
keeps running across pull/return cycles. -/
theorem C4_drop_restores_timestamp (p : Pool T) (r : Reusable T) :
    ∃ rest, lookupK (p.dropReusable r).objects r.item
        = some (⟨r.data, r.start_time⟩ :: rest) := by
  obtain ⟨rest, h, _⟩ := lookupK_attach_time p r.item r.start_time r.data
  exact ⟨rest, h⟩

/-- C5: when the key's sub-pool holds strictly more entries than
`max_single_pool_size`, `retrieve` discards exactly one entry — the most
recent — and the real pop then acts on the remainder (`l.tail`); otherwise
the pop acts on the sub-pool directly.  The pop is last-in-first-out:
retrieving right after an attach (within bounds, entry unexpired) returns
precisely the just-attached object. -/
theorem C5_trim_then_pop (p : Pool T) (item : String) (now : Nat) :
    (∀ l, lookupK p.objects item = some l →
      p.try_pull item now
        = p.popSpec item
            (if p.max_single_pool_size < l.length then l.tail else l) now) ∧
    (∀ st t, (p.attach_time item st t).len item ≤ p.max_single_pool_size →
      (⟨t, st⟩ : Inner T).expired p.expiration now = false →
      ((p.attach_time item st t).try_pull item now).1 = some ⟨item, st, t⟩) := by
  constructor
  · intro l hl
    exact try_pull_some now hl
  · intro st t hlen hexp
    exact try_pull_after_attach st t now hlen hexp

/-- C5, witness: an overflowing sub-pool (3 entries, bound 1) matches the
trim-then-pop description, and on a default pool an attach followed by a
retrieve returns the attached object. -/
theorem C5_witness :
    ((Pool.mk 2 1 300 [("a", [⟨1, 0⟩, ⟨2, 0⟩, ⟨3, 0⟩])] : Pool Nat).try_pull "a" 5
      = (Pool.mk 2 1 300 [("a", [⟨1, 0⟩, ⟨2, 0⟩, ⟨3, 0⟩])] : Pool Nat).popSpec "a"
          (if (Pool.mk 2 1 300
                [("a", [⟨1, 0⟩, ⟨2, 0⟩, ⟨3, 0⟩])] : Pool Nat).max_single_pool_size
              < ([⟨1, 0⟩, ⟨2, 0⟩, ⟨3, 0⟩] : List (Inner Nat)).length
            then ([⟨1, 0⟩, ⟨2, 0⟩, ⟨3, 0⟩] : List (Inner Nat)).tail
            else [⟨1, 0⟩, ⟨2, 0⟩, ⟨3, 0⟩]) 5) ∧
    (((Pool.mk 32 8 300 ([] : List (String × List (Inner Nat)))).attach_time "a" 5
        42).try_pull "a" 5).1 = some ⟨"a", 5, 42⟩ :=
  ⟨(C5_trim_then_pop (Pool.mk 2 1 300 [("a", [⟨1, 0⟩, ⟨2, 0⟩, ⟨3, 0⟩])]) "a" 5).1
      [⟨1, 0⟩, ⟨2, 0⟩, ⟨3, 0⟩] (by decide),
   (C5_trim_then_pop (Pool.mk 32 8 300 ([] : List (String × List (Inner Nat)))) "a" 5).2
      5 42 (by decide) (by decide)⟩

/-- C6: `retrieve` reports absence (returns `none`, never throwing — the
operation is a total function) in exactly three cases: key missing, a
(possibly trimmed) empty sub-pool, or an expired popped entry; in the
expired case the popped entry is discarded, not re-inserted; and for a key
that was never attached, `length(key) = 0` and retrieval reports absent
leaving the pool unchanged. -/
theorem C6_absence (p : Pool T) (item : String) (now : Nat) :
    ((p.try_pull item now).1 = none ↔
      lookupK p.objects item = none ∨
      ∃ l, lookupK p.objects item = some l ∧
        ((if p.max_single_pool_size < l.length then l.tail else l) = [] ∨
         ∃ e rest,
           (if p.max_single_pool_size < l.length then l.tail else l) = e :: rest ∧
           e.expired p.expiration now = true)) ∧
    (∀ l e rest, lookupK p.objects item = some l →
      (if p.max_single_pool_size < l.length then l.tail else l) = e :: rest →
      e.expired p.expiration now = true →
      p.try_pull item now = (none, p.setSub item rest)) ∧
    (lookupK p.objects item = none →
      p.len item = 0 ∧ p.try_pull item now = (none, p)) := by
  refine ⟨?_, ?_, ?_⟩
  · constructor
    · intro h
      cases hl : lookupK p.objects item with
      | none => exact Or.inl rfl
      | some l =>
        refine Or.inr ⟨l, rfl, ?_⟩
        rw [try_pull_some now hl] at h
        cases htr : (if p.max_single_pool_size < l.length then l.tail else l) with
        | nil => exact Or.inl rfl
        | cons e rest =>
          rw [htr] at h
          simp only [Pool.popSpec] at h
          by_cases hexp : e.expired p.expiration now = true
          · exact Or.inr ⟨e, rest, rfl, hexp⟩
          · rw [if_neg hexp] at h
            exact Option.noConfusion h
    · intro h
      rcases h with hl | ⟨l, hl, hcase⟩
      · rw [try_pull_none now hl]
      · rw [try_pull_some now hl]
        rcases hcase with he | ⟨e, rest, hcons, hexp⟩
        · rw [he]
          rfl
        · rw [hcons]
          simp only [Pool.popSpec]
          rw [if_pos hexp]
  · intro l e rest hl hcons hexp
    rw [try_pull_some now hl, hcons]
    simp only [Pool.popSpec]
    rw [if_pos hexp]
  · intro h
    constructor
    · unfold Pool.len
      rw [h]
    · exact try_pull_none now h

/-- C6, witness: a key never attached on an empty default pool. -/
theorem C6_witness :
    (Pool.mk 32 8 300 ([] : List (String × List (Inner Nat)))).len "z" = 0 ∧
    (Pool.mk 32 8 300 ([] : List (String × List (Inner Nat)))).try_pull "z" 0
      = (none, Pool.mk 32 8 300 []) :=
  (C6_absence (Pool.mk 32 8 300 ([] : List (String × List (Inner Nat)))) "z" 0).2.2
    (by decide)

/-- C7, counterexample.  On a full pool (`max_pool_indexes = 1`) whose only
key `"a"` holds two live entries, `pull("a", ctor).detach()` yields the
object and leaves `length("a") = 1`; the subsequent explicit
`attach("a", obj)` evicts the key's own sub-pool before inserting, so
`length("a")` is still 1 afterwards — it did not increase by exactly 1. -/
theorem C7_counterexample :
    Pool.pull 1 (Pool.mk 1 2 1000 [("a", [⟨10, 0⟩, ⟨20, 0⟩])] : Pool Nat) "a"
        (fun _ => 10) 5 0
      = some (⟨"a", 0, 10⟩, Pool.mk 1 2 1000 [("a", [⟨20, 0⟩])], 0) ∧
    Reusable.detach (Pool.mk 1 2 1000 [("a", [⟨20, 0⟩])] : Pool Nat) ⟨"a", 0, 10⟩
      = (Pool.mk 1 2 1000 [("a", [⟨20, 0⟩])], 10) ∧
    (Pool.mk 1 2 1000 [("a", [⟨20, 0⟩])] : Pool Nat).len "a" = 1 ∧
    ((Pool.mk 1 2 1000 [("a", [⟨20, 0⟩])] : Pool Nat).attach "a" 10 6).len "a" = 1 ∧
    (1 : Nat) ≠ 1 + 1 := by
  decide

/-- C7 (amended): `detach` yields the pool and the object and performs no
pool mutation (so dropping the bare object cannot return it and every
`length` is unchanged); provided the pool is NOT full (so the attach cannot
evict the key's own sub-pool), a subsequent explicit attach of the object
increases `length(key)` by exactly 1, and if the sub-pool is then within
`max_single_pool_size` an immediate retrieve returns that same object. -/
theorem C7_detach_attach_roundtrip (p : Pool T) (item : String) (t : T) (now : Nat) :
    (∀ r : Reusable T, Reusable.detach p r = (p, r.data)) ∧
    (p.is_full = false →
      (p.attach item t now).len item = p.len item + 1 ∧
      ((p.attach item t now).len item ≤ p.max_single_pool_size →
        ((p.attach item t now).try_pull item now).1 = some ⟨item, now, t⟩)) := by
  refine ⟨fun r => rfl, fun hnf => ⟨len_attach_not_full hnf item now t, fun hle => ?_⟩⟩
  exact try_pull_after_attach now t now hle (expired_fresh rfl)

/-- C7, witness for the amended theorem: a non-full default pool with one
resident entry under `"a"`. -/
theorem C7_witness :
    (Reusable.detach (Pool.mk 32 8 300 [("a", [⟨20, 0⟩])] : Pool Nat) ⟨"a", 0, 10⟩
      = (Pool.mk 32 8 300 [("a", [⟨20, 0⟩])], 10)) ∧
    ((Pool.mk 32 8 300 [("a", [⟨20, 0⟩])] : Pool Nat).attach "a" 10 6).len "a"
      = (Pool.mk 32 8 300 [("a", [⟨20, 0⟩])] : Pool Nat).len "a" + 1 ∧
    (((Pool.mk 32 8 300 [("a", [⟨20, 0⟩])] : Pool Nat).attach "a" 10 6).try_pull
        "a" 6).1 = some ⟨"a", 6, 10⟩ := by
  have h := C7_detach_attach_roundtrip
    (Pool.mk 32 8 300 [("a", [⟨20, 0⟩])] : Pool Nat) "a" 10 6
  exact ⟨h.1 ⟨"a", 0, 10⟩, (h.2 (by decide)).1, (h.2 (by decide)).2 (by decide)⟩

end Claims

end IndexPool
